import Mathlib

/-!
Verification development for a dependency-injection container runtime and its
example application (a logger, an HTTP handler and an HTTP multiplexer wired
together through providers, invocations and lifecycle hooks).

The container runtime (provider registry, lazy resolver with a singleton
instance cache, invocation runner and lifecycle manager) is modelled from the
specification, since the repository contains only the example program that
uses the container through its public contract.  The example program's own
functions (`NewLogger`, `NewHandler`, `NewMux`, `Register`) are embedded from
`src/main.go`.

TypeKeys, provider ids, invocation ids and hook ids are represented by `Nat`.
Real time is not modelled: a hook's outcome is recorded as a boolean, so a
start-deadline expiry is abstracted as a failing `OnStart`.
-/

/-- Modelled from the spec: a lifecycle hook is a pair of OnStart/OnStop
operations.  Missing from `src/`: the lifecycle manager of the container
library.  `hid` identifies the hook in event traces; `startOk` / `stopOk`
record whether the corresponding operation completes without failure. -/
structure Hook where
  hid : Nat
  startOk : Bool
  stopOk : Bool
deriving DecidableEq, Repr

/-- Modelled from the spec: the container states of the lifecycle state
machine (section 4.4 of the spec). -/
inductive ContainerState where
  | Built
  | Starting
  | Running
  | Stopping
  | Stopped
  | FailedToStart
deriving DecidableEq, Repr

/-- Observable lifecycle events: a hook's OnStart completing, a hook's
OnStart failing, a hook's OnStop completing and a hook's OnStop failing. -/
inductive Ev where
  | started (hid : Nat)
  | startFailed (hid : Nat)
  | stopped (hid : Nat)
  | stopFailed (hid : Nat)
deriving DecidableEq, Repr

/-- Modelled from the spec: the error reported when the start phase fails
because some OnStart hook failed. -/
inductive LifeErr where
  | startHookFailed (hid : Nat)
deriving DecidableEq, Repr

/-- The event recorded when a hook's OnStop is attempted. -/
def stopEvOf (h : Hook) : Ev :=
  if h.stopOk then Ev.stopped h.hid else Ev.stopFailed h.hid

/-- Modelled from the spec: the start phase.  Missing from `src/`: the
container library's start loop.  Runs each hook's OnStart strictly in append
order; `acc` accumulates the successfully started hooks, most recent first.
On the first OnStart failure it immediately attempts the OnStop of every
successfully started hook in reverse append order, ignoring OnStop failures,
and reports the triggering error. -/
def runStartGo : List Hook → List Hook → List Ev × Option LifeErr
  | [], _ => ([], none)
  | h :: rest, acc =>
    if h.startOk then
      let r := runStartGo rest (h :: acc)
      (Ev.started h.hid :: r.1, r.2)
    else
      (Ev.startFailed h.hid :: acc.map stopEvOf, some (LifeErr.startHookFailed h.hid))

/-- Modelled from the spec: run the start phase over the whole hook
sequence. -/
def runStart (hooks : List Hook) : List Ev × Option LifeErr :=
  runStartGo hooks []

/-- Modelled from the spec: the container state reached by the start phase:
`Running` when every OnStart succeeded, `FailedToStart` otherwise. -/
def stateAfterStart (hooks : List Hook) : ContainerState :=
  match (runStart hooks).2 with
  | none => ContainerState.Running
  | some _ => ContainerState.FailedToStart

/-- Modelled from the spec: the stop loop over an already-reversed hook list.
Every hook's OnStop is attempted; failures are collected (by hook id) but do
not prevent the remaining OnStop hooks from running. -/
def runStopGo : List Hook → List Ev × List Nat
  | [] => ([], [])
  | h :: rest =>
    let r := runStopGo rest
    if h.stopOk then (Ev.stopped h.hid :: r.1, r.2)
    else (Ev.stopFailed h.hid :: r.1, h.hid :: r.2)

/-- Modelled from the spec: the stop phase attempts every hook's OnStop in
reverse append order and returns the event trace together with the collected
failures. -/
def runStop (hooks : List Hook) : List Ev × List Nat :=
  runStopGo hooks.reverse

/-- Modelled from the spec: the stop phase always completes its sweep, so the
container always reaches `Stopped` after it. -/
def stateAfterStop (_ : List Hook) : ContainerState :=
  ContainerState.Stopped

/-- Modelled from the spec: a provider descriptor.  Missing from `src/`: the
container library's provider registry.  `pid` identifies the provider in
execution traces, `inputs` and `outputs` are its dependency and product
TypeKeys, `ok` records whether the constructor succeeds when invoked, and
`hooks` are the lifecycle hooks the constructor appends when it runs
successfully. -/
structure Provider where
  pid : Nat
  inputs : List Nat
  outputs : List Nat
  ok : Bool
  hooks : List Hook
deriving DecidableEq, Repr

/-- Modelled from the spec: the resolution-time error taxonomy.  `OutOfFuel`
is an artifact of the embedding only: resolution recursion is bounded by a
fuel parameter, and with fuel larger than the resolution depth the
constructor is never produced. -/
inductive ResErr where
  | UnknownType (t : Nat)
  | CyclicDependency (t : Nat)
  | ConstructorFailed (pid : Nat)
  | OutOfFuel
deriving DecidableEq, Repr

/-- Modelled from the spec: the mutable container state threaded through
resolution: the instance cache (TypeKeys already materialized), the ordered
trace of constructor executions (by provider id) and the ordered lifecycle
hook sequence. -/
structure St where
  cache : List Nat
  trace : List Nat
  hooks : List Hook
deriving DecidableEq, Repr

/-- Modelled from the spec: `Lookup(typeKey)` returns the first registered
provider that produces the requested TypeKey, if any. -/
def lookupTK (reg : List Provider) (t : Nat) : Option Provider :=
  reg.find? (fun p => decide (t ∈ p.outputs))

/-- Modelled from the spec: depth-first resolution of a worklist of TypeKeys.
Missing from `src/`: the container library's dependency resolver.  For each
key in order: a cache hit returns immediately (the constructor runs at most
once); a key marked in-progress on the current path fails with
`CyclicDependency`; otherwise the provider is looked up (`UnknownType` if
absent), its inputs are resolved recursively with the key marked
in-progress, and the provider is invoked: on success all of its outputs are
cached atomically, its execution is recorded in the trace and its hooks are
appended to the hook sequence; on failure `ConstructorFailed` is propagated,
the execution is recorded but nothing is cached and no hook is appended.
Fuel decreases on every recursive call so the recursion is structural. -/
def resolveMany (reg : List Provider) : Nat → List Nat → St → List Nat → Option ResErr × St
  | _, _, st, [] => (none, st)
  | 0, _, st, _ :: _ => (some ResErr.OutOfFuel, st)
  | fuel + 1, ip, st, t :: rest =>
    if t ∈ st.cache then
      resolveMany reg fuel ip st rest
    else if t ∈ ip then
      (some (ResErr.CyclicDependency t), st)
    else
      match lookupTK reg t with
      | none => (some (ResErr.UnknownType t), st)
      | some p =>
        match resolveMany reg fuel (t :: ip) st p.inputs with
        | (some e, st1) => (some e, st1)
        | (none, st1) =>
          if p.ok then
            resolveMany reg fuel ip
              ⟨st1.cache ++ p.outputs, st1.trace ++ [p.pid], st1.hooks ++ p.hooks⟩ rest
          else
            (some (ResErr.ConstructorFailed p.pid), ⟨st1.cache, st1.trace ++ [p.pid], st1.hooks⟩)

/-- Modelled from the spec: `Resolve(typeKey)` resolves one requested
TypeKey. -/
def resolve (reg : List Provider) (fuel : Nat) (ip : List Nat) (st : St) (t : Nat) :
    Option ResErr × St :=
  resolveMany reg fuel ip st [t]

/-- Modelled from the spec: an invocation descriptor.  `iid` identifies the
invocation in the run trace, `inputs` are the TypeKeys of its parameters and
`ok` records whether the invocation itself succeeds once called. -/
structure Invocation where
  iid : Nat
  inputs : List Nat
  ok : Bool
deriving DecidableEq, Repr

/-- Modelled from the spec: the application-level error taxonomy surfaced by
materialization and start. -/
inductive AppErr where
  | res (e : ResErr)
  | invocationFailed (iid : Nat)
  | startFailed (e : LifeErr)
deriving DecidableEq, Repr

/-- Modelled from the spec: the invocation runner.  Missing from `src/`: the
container library's materialization pass.  Invocations run strictly in
registration order; each resolves its parameters through the resolver before
being called.  A parameter-resolution failure or an invocation failure
aborts immediately: later invocations do not run and the underlying cause is
returned.  The third component is the trace of invocation ids actually
called, in order. -/
def runInvs (reg : List Provider) (fuel : Nat) : List Invocation → St → Option AppErr × St × List Nat
  | [], st => (none, st, [])
  | i :: rest, st =>
    match resolveMany reg fuel [] st i.inputs with
    | (some e, st1) => (some (AppErr.res e), st1, [])
    | (none, st1) =>
      if i.ok then
        match runInvs reg fuel rest st1 with
        | (e, st2, tr) => (e, st2, i.iid :: tr)
      else
        (some (AppErr.invocationFailed i.iid), st1, [i.iid])

/-- Modelled from the spec: the application facade's `Start`: run the single
materialization pass from the empty container state, then run the lifecycle
start phase over the hooks appended during resolution.  Returns the overall
error, the final container state, the invocation trace and the lifecycle
event trace (empty when materialization fails, since no hook runs then). -/
def appStart (reg : List Provider) (fuel : Nat) (invs : List Invocation) :
    Option AppErr × St × List Nat × List Ev :=
  match runInvs reg fuel invs ⟨[], [], []⟩ with
  | (some e, st, tr) => (some e, st, tr, [])
  | (none, st, tr) =>
    match runStart st.hooks with
    | (evs, none) => (none, st, tr, evs)
    | (evs, some le) => (some (AppErr.startFailed le), st, tr, evs)

/-- Modelled from the spec: transitive requirement between TypeKeys.
`Reach reg s u` holds when resolving `s` can, through the registered
providers, demand the TypeKey `u`: either `u = s`, or `u` is an input of the
provider looked up for some TypeKey already reachable from `s`. -/
inductive Reach (reg : List Provider) : Nat → Nat → Prop
  | refl (t : Nat) : Reach reg t t
  | step {s t u : Nat} {p : Provider} :
      Reach reg s t → lookupTK reg t = some p → u ∈ p.inputs → Reach reg s u

/-!
Embedding of the example program from `src/main.go`.  The standard-library
logger is modelled by the sequence of lines it has printed; an
`http.Handler` by its effect on the logger; `context.Context` by its
deadline; the goroutines spawned by a hook by a list of labels.
-/

/-- Embeds `*log.Logger` from `src/main.go`: the logger's observable state is
the list of lines it has printed to stdout. -/
structure GoLogger where
  lines : List String
deriving DecidableEq, Repr

/-- Embeds `logger.Print`: appends one line to the logger's output. -/
def logPrint (l : GoLogger) (s : String) : GoLogger :=
  ⟨l.lines ++ [s]⟩

/-- Embeds `NewLogger` from `src/main.go`: constructs a fresh logger and
prints `Executing NewLogger.` on it. -/
def NewLogger : GoLogger :=
  logPrint ⟨[]⟩ "Executing NewLogger."

/-- Embeds `NewHandler` from `src/main.go`: prints `Executing NewHandler.`
on the injected logger and returns the handler (which prints
`Got a request.` when serving) together with a `nil` error; the error result
is `Option String` with `none` standing for Go's `nil`. -/
def NewHandler (logger : GoLogger) : GoLogger × (GoLogger → GoLogger) × Option String :=
  (logPrint logger "Executing NewHandler.",
   fun l => logPrint l "Got a request.",
   none)

/-- Embeds `context.Context` as passed to the hooks in `src/main.go`: only
its deadline is observable to them (and the mux hooks ignore it on start). -/
structure GoCtx where
  deadline : Option Nat
deriving DecidableEq, Repr

/-- The world a mux lifecycle hook acts on: the injected logger, the labels
of goroutines spawned so far, and the environment's answer for
`server.Shutdown` (Go's `error`, `none` for `nil`). -/
structure MuxWorld where
  logger : GoLogger
  goroutines : List String
  shutdownErr : Option String
deriving DecidableEq, Repr

/-- Embeds `fx.Hook` as appended in `src/main.go`: a pair of OnStart/OnStop
closures acting on the mux world. -/
structure FxHook where
  onStart : GoCtx → MuxWorld → MuxWorld × Option String
  onStop : GoCtx → MuxWorld → MuxWorld × Option String

/-- Embeds `NewMux` from `src/main.go`: prints `Executing NewMux.` on the
injected logger and appends one hook.  The hook's OnStart prints
`Starting HTTP server.`, launches `server.ListenAndServe` on a separate
goroutine (so any listen/serve failure is dropped) and returns `nil`; its
OnStop prints `Stopping HTTP server.` and returns the result of
`server.Shutdown(ctx)`. -/
def NewMux (logger : GoLogger) : GoLogger × FxHook :=
  (logPrint logger "Executing NewMux.",
   ⟨fun _ w =>
      (⟨logPrint w.logger "Starting HTTP server.",
        w.goroutines ++ ["server.ListenAndServe"],
        w.shutdownErr⟩, none),
    fun _ w =>
      (⟨logPrint w.logger "Stopping HTTP server.",
        w.goroutines,
        w.shutdownErr⟩, w.shutdownErr)⟩)

/-- Embeds `Register` from `src/main.go`: mounts the handler on the mux,
modelled as recording the route `/` on a route list. -/
def Register (routes : List String) : List String :=
  routes ++ ["/"]

/-!
Concrete scenario from the spec (section 8): a registry with a provider for
`Handler(Logger)` but no `Logger` provider, and an invocation that needs the
handler.
-/

/-- TypeKey of `*log.Logger` in the scenario registry. -/
def kLogger : Nat := 0

/-- TypeKey of `http.Handler` in the scenario registry. -/
def kHandler : Nat := 1

/-- Scenario registry: a `Handler` provider depending on `Logger`, with no
`Logger` provider registered. -/
def regNoLogger : List Provider :=
  [⟨10, [kLogger], [kHandler], true, []⟩]

/-- Scenario invocation: needs the handler. -/
def invHandler : Invocation :=
  ⟨1, [kHandler], true⟩

/-!
Lifecycle manager lemmas.
-/

/-- When every hook's OnStart succeeds, the start loop emits exactly one
`started` event per hook, in append order, and reports no error. -/
theorem runStartGo_all_ok (hooks : List Hook) (acc : List Hook)
    (hall : ∀ h ∈ hooks, h.startOk = true) :
    runStartGo hooks acc = (hooks.map (fun h => Ev.started h.hid), none) := by
  induction hooks generalizing acc with
  | nil => rfl
  | cons hd tl ih =>
    simp only [runStartGo, hall hd (List.mem_cons_self hd tl), if_pos]
    simp [ih (hd :: acc) (fun x hx => hall x (List.mem_cons_of_mem hd hx))]

/-- When the hooks before `bad` all start successfully and `bad`'s OnStart
fails, the start loop emits the successful starts in order, then the failure
event, then one OnStop attempt for each successfully started hook in reverse
order, and reports `bad` as the triggering failure; hooks after `bad` are
not started. -/
theorem runStartGo_fail (good : List Hook) (bad : Hook) (rest : List Hook) (acc : List Hook)
    (hg : ∀ h ∈ good, h.startOk = true) (hb : bad.startOk = false) :
    runStartGo (good ++ bad :: rest) acc =
      (good.map (fun h => Ev.started h.hid) ++
         Ev.startFailed bad.hid :: (good.reverse ++ acc).map stopEvOf,
       some (LifeErr.startHookFailed bad.hid)) := by
  induction good generalizing acc with
  | nil => simp [runStartGo, hb]
  | cons hd tl ih =>
    simp only [List.cons_append, runStartGo, hg hd (List.mem_cons_self hd tl), if_pos,
      List.append_eq]
    rw [ih (hd :: acc) (fun x hx => hg x (List.mem_cons_of_mem hd hx))]
    simp

/-- The stop loop emits one OnStop attempt per hook in list order and
collects exactly the ids of the hooks whose OnStop failed, in that order. -/
theorem runStopGo_spec (l : List Hook) :
    runStopGo l = (l.map stopEvOf, (l.filter (fun h => !h.stopOk)).map Hook.hid) := by
  induction l with
  | nil => rfl
  | cons hd tl ih =>
    simp only [runStopGo, ih, List.filter_cons]
    cases hs : hd.stopOk <;> simp [stopEvOf, hs]

/-!
Resolver lemmas.
-/

/-- A provider found by `lookupTK` is a registered provider. -/
theorem lookupTK_mem {reg : List Provider} {t : Nat} {p : Provider}
    (h : lookupTK reg t = some p) : p ∈ reg :=
  List.mem_of_find?_eq_some h

/-- A provider found by `lookupTK` for `t` produces `t`. -/
theorem lookupTK_output {reg : List Provider} {t : Nat} {p : Provider}
    (h : lookupTK reg t = some p) : t ∈ p.outputs := by
  unfold lookupTK at h
  have h2 := List.find?_some h
  simpa using h2

/-- Transitive requirement composes. -/
theorem reach_trans {reg : List Provider} {s t u : Nat}
    (h1 : Reach reg s t) (h2 : Reach reg t u) : Reach reg s u := by
  induction h2 with
  | refl => exact h1
  | step _ hl hm ih => exact Reach.step ih hl hm

/-- Resolution only ever appends to the constructor-execution trace. -/
theorem resolveMany_trace_mono (reg : List Provider) :
    ∀ fuel ip st ts, ∃ d, ((resolveMany reg fuel ip st ts).2).trace = st.trace ++ d := by
  intro fuel
  induction fuel with
  | zero =>
    intro ip st ts
    cases ts <;> exact ⟨[], by simp [resolveMany]⟩
  | succ n ih =>
    intro ip st ts
    cases ts with
    | nil => exact ⟨[], by simp [resolveMany]⟩
    | cons t rest =>
      simp only [resolveMany]
      by_cases hc : t ∈ st.cache
      · simp only [if_pos hc]
        exact ih ip st rest
      · simp only [if_neg hc]
        by_cases hip : t ∈ ip
        · exact ⟨[], by simp [if_pos hip]⟩
        · simp only [if_neg hip]
          cases hl : lookupTK reg t with
          | none => exact ⟨[], by simp⟩
          | some p =>
            rcases hr : resolveMany reg n (t :: ip) st p.inputs with ⟨e1, st1⟩
            obtain ⟨d1, hd1⟩ := ih (t :: ip) st p.inputs
            rw [hr] at hd1
            simp only [] at hd1
            cases e1 with
            | some e => exact ⟨d1, by simp [hr, hd1]⟩
            | none =>
              by_cases hok : p.ok
              · obtain ⟨d2, hd2⟩ :=
                  ih ip ⟨st1.cache ++ p.outputs, st1.trace ++ [p.pid], st1.hooks ++ p.hooks⟩ rest
                refine ⟨d1 ++ [p.pid] ++ d2, ?_⟩
                simp only [hr, hok, if_pos]
                simp only [] at hd2
                rw [hd2, hd1]
                simp
              · refine ⟨d1 ++ [p.pid], ?_⟩
                simp [hr, hok, hd1]

/-- Membership form of trace monotonicity. -/
theorem resolveMany_trace_mem (reg : List Provider) (fuel : Nat) (ip : List Nat) (st : St)
    (ts : List Nat) {pid : Nat} (h : pid ∈ st.trace) :
    pid ∈ ((resolveMany reg fuel ip st ts).2).trace := by
  obtain ⟨d, hd⟩ := resolveMany_trace_mono reg fuel ip st ts
  rw [hd]
  exact List.mem_append_left d h

/-- Every constructor execution recorded during resolution of the worklist
`ts` was either already recorded, or belongs to a provider looked up for a
TypeKey transitively reachable from some key in `ts`. -/
theorem resolveMany_trace_reach (reg : List Provider) :
    ∀ fuel ip st ts, ∀ pid ∈ ((resolveMany reg fuel ip st ts).2).trace,
      pid ∈ st.trace ∨
        ∃ t tp p, t ∈ ts ∧ Reach reg t tp ∧ lookupTK reg tp = some p ∧ p.pid = pid := by
  intro fuel
  induction fuel with
  | zero =>
    intro ip st ts pid h
    cases ts <;> simp [resolveMany] at h <;> exact Or.inl h
  | succ n ih =>
    intro ip st ts pid h
    cases ts with
    | nil =>
      simp [resolveMany] at h
      exact Or.inl h
    | cons t rest =>
      simp only [resolveMany] at h
      by_cases hc : t ∈ st.cache
      · rw [if_pos hc] at h
        rcases ih ip st rest pid h with h1 | ⟨u, tp, p, hu, hre, hlo, hpid⟩
        · exact Or.inl h1
        · exact Or.inr ⟨u, tp, p, List.mem_cons_of_mem t hu, hre, hlo, hpid⟩
      · rw [if_neg hc] at h
        by_cases hip : t ∈ ip
        · rw [if_pos hip] at h
          exact Or.inl h
        · rw [if_neg hip] at h
          cases hl : lookupTK reg t with
          | none =>
            rw [hl] at h
            exact Or.inl h
          | some p =>
            rw [hl] at h
            dsimp only [] at h
            rcases hr : resolveMany reg n (t :: ip) st p.inputs with ⟨e1, st1⟩
            rw [hr] at h
            have hin : ∀ q ∈ st1.trace,
                q ∈ st.trace ∨
                  ∃ tp pr, Reach reg t tp ∧ lookupTK reg tp = some pr ∧ pr.pid = q := by
              intro q hq
              have := ih (t :: ip) st p.inputs q (by rw [hr]; exact hq)
              rcases this with h1 | ⟨u, tp, pr, hu, hre, hlo, hpid⟩
              · exact Or.inl h1
              · refine Or.inr ⟨tp, pr, ?_, hlo, hpid⟩
                exact reach_trans (Reach.step (Reach.refl t) hl hu) hre
            cases e1 with
            | some e =>
              simp only [] at h
              rcases hin pid h with h1 | ⟨tp, pr, hre, hlo, hpid⟩
              · exact Or.inl h1
              · exact Or.inr ⟨t, tp, pr, List.mem_cons_self t rest, hre, hlo, hpid⟩
            | none =>
              simp only [] at h
              by_cases hok : p.ok
              · rw [if_pos hok] at h
                rcases ih ip
                    ⟨st1.cache ++ p.outputs, st1.trace ++ [p.pid], st1.hooks ++ p.hooks⟩
                    rest pid h with h1 | ⟨u, tp, pr, hu, hre, hlo, hpid⟩
                · simp only [] at h1
                  rcases List.mem_append.mp h1 with h2 | h2
                  · rcases hin pid h2 with h3 | ⟨tp, pr, hre, hlo, hpid⟩
                    · exact Or.inl h3
                    · exact Or.inr ⟨t, tp, pr, List.mem_cons_self t rest, hre, hlo, hpid⟩
                  · have : pid = p.pid := List.mem_singleton.mp h2
                    exact Or.inr ⟨t, t, p, List.mem_cons_self t rest, Reach.refl t, hl, this.symm⟩
                · exact Or.inr ⟨u, tp, pr, List.mem_cons_of_mem t hu, hre, hlo, hpid⟩
              · rw [if_neg hok] at h
                simp only [] at h
                rcases List.mem_append.mp h with h2 | h2
                · rcases hin pid h2 with h3 | ⟨tp, pr, hre, hlo, hpid⟩
                  · exact Or.inl h3
                  · exact Or.inr ⟨t, tp, pr, List.mem_cons_self t rest, hre, hlo, hpid⟩
                · have : pid = p.pid := List.mem_singleton.mp h2
                  exact Or.inr ⟨t, t, p, List.mem_cons_self t rest, Reach.refl t, hl, this.symm⟩

/-- Every hook present in the hook sequence after resolution was either
already there, or was appended by a registered provider whose execution is
recorded in the final trace. -/
theorem resolveMany_hooks_provenance (reg : List Provider) :
    ∀ fuel ip st ts, ∀ h ∈ ((resolveMany reg fuel ip st ts).2).hooks,
      h ∈ st.hooks ∨
        ∃ q, q ∈ reg ∧ q.pid ∈ ((resolveMany reg fuel ip st ts).2).trace ∧ h ∈ q.hooks := by
  intro fuel
  induction fuel with
  | zero =>
    intro ip st ts h hh
    cases ts <;> simp [resolveMany] at hh <;> exact Or.inl hh
  | succ n ih =>
    intro ip st ts h hh
    cases ts with
    | nil =>
      simp [resolveMany] at hh
      exact Or.inl hh
    | cons t rest =>
      simp only [resolveMany] at hh ⊢
      by_cases hc : t ∈ st.cache
      · rw [if_pos hc] at hh ⊢
        exact ih ip st rest h hh
      · rw [if_neg hc] at hh ⊢
        by_cases hip : t ∈ ip
        · rw [if_pos hip] at hh ⊢
          exact Or.inl hh
        · rw [if_neg hip] at hh ⊢
          cases hl : lookupTK reg t with
          | none =>
            rw [hl] at hh
            exact Or.inl hh
          | some p =>
            rw [hl] at hh
            dsimp only [] at hh ⊢
            rcases hr : resolveMany reg n (t :: ip) st p.inputs with ⟨e1, st1⟩
            have hin : ∀ x ∈ st1.hooks,
                x ∈ st.hooks ∨ ∃ q, q ∈ reg ∧ q.pid ∈ st1.trace ∧ x ∈ q.hooks := by
              intro x hx
              have := ih (t :: ip) st p.inputs x (by rw [hr]; exact hx)
              rw [hr] at this
              exact this
            cases e1 with
            | some e =>
              rw [hr] at hh
              exact hin h hh
            | none =>
              rw [hr] at hh
              dsimp only [] at hh ⊢
              by_cases hok : p.ok
              · rw [if_pos hok] at hh ⊢
                set st2 : St :=
                  ⟨st1.cache ++ p.outputs, st1.trace ++ [p.pid], st1.hooks ++ p.hooks⟩ with hst2
                rcases ih ip st2 rest h hh with h1 | ⟨q, hq, hqt, hqh⟩
                · have hmem : h ∈ st1.hooks ∨ h ∈ p.hooks := by
                    rw [hst2] at h1
                    exact List.mem_append.mp h1
                  rcases hmem with h2 | h2
                  · rcases hin h h2 with h3 | ⟨q, hq, hqt, hqh⟩
                    · exact Or.inl h3
                    · refine Or.inr ⟨q, hq, ?_, hqh⟩
                      refine resolveMany_trace_mem reg n ip st2 rest ?_
                      rw [hst2]
                      exact List.mem_append_left _ hqt
                  · refine Or.inr ⟨p, lookupTK_mem hl, ?_, h2⟩
                    refine resolveMany_trace_mem reg n ip st2 rest ?_
                    rw [hst2]
                    exact List.mem_append_right _ (List.mem_singleton.mpr rfl)
                · exact Or.inr ⟨q, hq, hqt, hqh⟩
              · rw [if_neg hok] at hh ⊢
                simp only [] at hh ⊢
                rcases hin h hh with h1 | ⟨q, hq, hqt, hqh⟩
                · exact Or.inl h1
                · exact Or.inr ⟨q, hq, List.mem_append_left _ hqt, hqh⟩

/-!
Invocation-runner lemmas.
-/

/-- The materialization pass only ever appends to the constructor-execution
trace. -/
theorem runInvs_trace_mono (reg : List Provider) (fuel : Nat) :
    ∀ invs st, ∃ d, ((runInvs reg fuel invs st).2.1).trace = st.trace ++ d := by
  intro invs
  induction invs with
  | nil => exact fun st => ⟨[], by simp [runInvs]⟩
  | cons i rest ih =>
    intro st
    simp only [runInvs]
    rcases hr : resolveMany reg fuel [] st i.inputs with ⟨e1, st1⟩
    obtain ⟨d1, hd1⟩ := resolveMany_trace_mono reg fuel [] st i.inputs
    rw [hr] at hd1
    simp only [] at hd1
    cases e1 with
    | some e => exact ⟨d1, by simp [hd1]⟩
    | none =>
      dsimp only []
      by_cases hok : i.ok
      · rw [if_pos hok]
        obtain ⟨d2, hd2⟩ := ih st1
        rcases hrest : runInvs reg fuel rest st1 with ⟨e2, st2, tr2⟩
        rw [hrest] at hd2
        simp only [] at hd2
        exact ⟨d1 ++ d2, by simp [hd2, hd1]⟩
      · rw [if_neg hok]
        exact ⟨d1, by simp [hd1]⟩

/-- Every constructor execution recorded by the materialization pass was
either already recorded, or belongs to a provider looked up for a TypeKey
transitively required by some registered invocation's parameter. -/
theorem runInvs_trace_reach (reg : List Provider) (fuel : Nat) :
    ∀ invs st, ∀ pid ∈ ((runInvs reg fuel invs st).2.1).trace,
      pid ∈ st.trace ∨
        ∃ inv t tp p, inv ∈ invs ∧ t ∈ inv.inputs ∧ Reach reg t tp ∧
          lookupTK reg tp = some p ∧ p.pid = pid := by
  intro invs
  induction invs with
  | nil =>
    intro st pid h
    simp [runInvs] at h
    exact Or.inl h
  | cons i rest ih =>
    intro st pid h
    simp only [runInvs] at h
    rcases hr : resolveMany reg fuel [] st i.inputs with ⟨e1, st1⟩
    rw [hr] at h
    have hin : ∀ q ∈ st1.trace,
        q ∈ st.trace ∨
          ∃ t tp p, t ∈ i.inputs ∧ Reach reg t tp ∧ lookupTK reg tp = some p ∧ p.pid = q := by
      intro q hq
      have := resolveMany_trace_reach reg fuel [] st i.inputs q (by rw [hr]; exact hq)
      exact this
    cases e1 with
    | some e =>
      simp only [] at h
      rcases hin pid h with h1 | ⟨t, tp, p, ht, hre, hlo, hpid⟩
      · exact Or.inl h1
      · exact Or.inr ⟨i, t, tp, p, List.mem_cons_self i rest, ht, hre, hlo, hpid⟩
    | none =>
      simp only [] at h
      by_cases hok : i.ok
      · rw [if_pos hok] at h
        rcases hrest : runInvs reg fuel rest st1 with ⟨e2, st2, tr2⟩
        rw [hrest] at h
        simp only [] at h
        rcases ih st1 pid (by rw [hrest]; exact h) with h1 | ⟨inv, t, tp, p, hi, ht, hre, hlo, hpid⟩
        · rcases hin pid h1 with h2 | ⟨t, tp, p, ht, hre, hlo, hpid⟩
          · exact Or.inl h2
          · exact Or.inr ⟨i, t, tp, p, List.mem_cons_self i rest, ht, hre, hlo, hpid⟩
        · exact Or.inr ⟨inv, t, tp, p, List.mem_cons_of_mem i hi, ht, hre, hlo, hpid⟩
      · rw [if_neg hok] at h
        simp only [] at h
        rcases hin pid h with h1 | ⟨t, tp, p, ht, hre, hlo, hpid⟩
        · exact Or.inl h1
        · exact Or.inr ⟨i, t, tp, p, List.mem_cons_self i rest, ht, hre, hlo, hpid⟩

/-- Every hook in the hook sequence after materialization was either already
there or was appended by a registered provider whose execution is recorded
in the final trace. -/
theorem runInvs_hooks_provenance (reg : List Provider) (fuel : Nat) :
    ∀ invs st, ∀ h ∈ ((runInvs reg fuel invs st).2.1).hooks,
      h ∈ st.hooks ∨
        ∃ q, q ∈ reg ∧ q.pid ∈ ((runInvs reg fuel invs st).2.1).trace ∧ h ∈ q.hooks := by
  intro invs
  induction invs with
  | nil =>
    intro st h hh
    simp [runInvs] at hh
    exact Or.inl hh
  | cons i rest ih =>
    intro st h hh
    simp only [runInvs] at hh ⊢
    rcases hr : resolveMany reg fuel [] st i.inputs with ⟨e1, st1⟩
    have hin : ∀ x ∈ st1.hooks,
        x ∈ st.hooks ∨ ∃ q, q ∈ reg ∧ q.pid ∈ st1.trace ∧ x ∈ q.hooks := by
      intro x hx
      have := resolveMany_hooks_provenance reg fuel [] st i.inputs x (by rw [hr]; exact hx)
      rw [hr] at this
      exact this
    cases e1 with
    | some e =>
      rw [hr] at hh
      exact hin h hh
    | none =>
      rw [hr] at hh
      dsimp only [] at hh ⊢
      by_cases hok : i.ok
      · rw [if_pos hok] at hh ⊢
        dsimp only [] at hh ⊢
        rcases ih st1 h hh with h1 | ⟨q, hq, hqt, hqh⟩
        · rcases hin h h1 with h2 | ⟨q, hq, hqt, hqh⟩
          · exact Or.inl h2
          · refine Or.inr ⟨q, hq, ?_, hqh⟩
            obtain ⟨d2, hd2⟩ := runInvs_trace_mono reg fuel rest st1
            rw [hd2]
            exact List.mem_append_left _ hqt
        · exact Or.inr ⟨q, hq, hqt, hqh⟩
      · rw [if_neg hok] at hh ⊢
        exact hin h hh

/-- A successful resolution leaves the requested TypeKey in the instance
cache. -/
theorem resolve_success_cached {reg : List Provider} {fuel : Nat} {ip : List Nat}
    {st st' : St} {T : Nat} (h : resolve reg fuel ip st T = (none, st')) :
    T ∈ st'.cache := by
  unfold resolve at h
  cases fuel with
  | zero => simp [resolveMany] at h
  | succ n =>
    simp only [resolveMany] at h
    by_cases hc : T ∈ st.cache
    · rw [if_pos hc] at h
      have h2 : st = st' := congrArg Prod.snd h
      rw [← h2]
      exact hc
    · rw [if_neg hc] at h
      by_cases hip : T ∈ ip
      · rw [if_pos hip] at h
        simp at h
      · rw [if_neg hip] at h
        cases hl : lookupTK reg T with
        | none =>
          rw [hl] at h
          simp at h
        | some p =>
          rw [hl] at h
          dsimp only [] at h
          rcases hr : resolveMany reg n (T :: ip) st p.inputs with ⟨e1, st1⟩
          rw [hr] at h
          cases e1 with
          | some e => simp at h
          | none =>
            dsimp only [] at h
            by_cases hok : p.ok
            · rw [if_pos hok] at h
              have h2 : St.mk (st1.cache ++ p.outputs) (st1.trace ++ [p.pid])
                  (st1.hooks ++ p.hooks) = st' := congrArg Prod.snd h
              rw [← h2]
              exact List.mem_append_right _ (lookupTK_output hl)
            · rw [if_neg hok] at h
              simp at h

/-- A cache hit returns the state unchanged: the constructor does not run
again, the trace and the hook sequence do not grow. -/
theorem resolve_cache_hit {reg : List Provider} {fuel : Nat} {ip : List Nat} {st : St}
    {T : Nat} (hf : 0 < fuel) (hc : T ∈ st.cache) :
    resolve reg fuel ip st T = (none, st) := by
  cases fuel with
  | zero => exact absurd hf (by simp)
  | succ n => simp [resolve, resolveMany, hc]

/-- A start-phase failure is always attributed to a hook whose OnStart
actually fails. -/
theorem runStartGo_fail_source :
    ∀ (hooks acc : List Hook) (hid : Nat),
      (runStartGo hooks acc).2 = some (LifeErr.startHookFailed hid) →
        ∃ h ∈ hooks, h.hid = hid ∧ h.startOk = false := by
  intro hooks
  induction hooks with
  | nil => intro acc hid h; simp [runStartGo] at h
  | cons hd tl ih =>
    intro acc hid h
    simp only [runStartGo] at h
    cases hs : hd.startOk with
    | true =>
      rw [hs] at h
      simp only [if_pos] at h
      obtain ⟨x, hx, hxe⟩ := ih (hd :: acc) hid h
      exact ⟨x, List.mem_cons_of_mem hd hx, hxe⟩
    | false =>
      rw [hs] at h
      simp only [Bool.false_eq_true, if_false] at h
      have : hd.hid = hid := by
        have := Option.some.inj h
        cases this
        rfl
      exact ⟨hd, List.mem_cons_self hd tl, this, hs⟩

/-!
Claim theorems.
-/

/-- C2: for hooks appended during resolution, the start phase runs OnStart
in append order (the start trace lists one `started` event per hook, in the
hook sequence's order) and the stop phase runs OnStop in reverse append
order (the stop trace is one OnStop attempt per hook over the reversed
sequence), so for H1 appended before H2, H1's OnStart runs before H2's and
H2's OnStop runs before H1's. -/
theorem hooks_start_append_order_stop_reverse_order (hooks : List Hook)
    (hall : ∀ h ∈ hooks, h.startOk = true) :
    (runStart hooks).1 = hooks.map (fun h => Ev.started h.hid) ∧
    (runStop hooks).1 = hooks.reverse.map stopEvOf := by
  constructor
  · exact congrArg Prod.fst (runStartGo_all_ok hooks [] hall)
  · exact congrArg Prod.fst (runStopGo_spec hooks.reverse)

/-- Witness for C2 at a concrete two-hook sequence. -/
theorem hooks_start_append_order_stop_reverse_order_witness :
    (runStart [⟨1, true, true⟩, ⟨2, true, false⟩]).1 =
        ([⟨1, true, true⟩, ⟨2, true, false⟩] : List Hook).map (fun h => Ev.started h.hid) ∧
      (runStop [⟨1, true, true⟩, ⟨2, true, false⟩]).1 =
        ([⟨1, true, true⟩, ⟨2, true, false⟩] : List Hook).reverse.map stopEvOf :=
  hooks_start_append_order_stop_reverse_order [⟨1, true, true⟩, ⟨2, true, false⟩] (by decide)

/-- C3: when an OnStart hook fails after some earlier hooks started
successfully, the start phase records the successful starts, then the
failure, then exactly one OnStop attempt per successfully started hook in
reverse order (OnStop failures are recorded but ignored), reports the
triggering `startHookFailed` error, hooks after the failing one are never
started, and the container reaches `FailedToStart`. -/
theorem start_failure_rollback (good : List Hook) (bad : Hook) (rest : List Hook)
    (hg : ∀ h ∈ good, h.startOk = true) (hb : bad.startOk = false) :
    runStart (good ++ bad :: rest) =
      (good.map (fun h => Ev.started h.hid) ++
         Ev.startFailed bad.hid :: good.reverse.map stopEvOf,
       some (LifeErr.startHookFailed bad.hid)) ∧
    stateAfterStart (good ++ bad :: rest) = ContainerState.FailedToStart := by
  have h1 := runStartGo_fail good bad rest [] hg hb
  constructor
  · simpa using h1
  · unfold stateAfterStart runStart
    rw [h1]

/-- Witness for C3: the third hook fails after two successful starts; the
rollback stops hook 2 then hook 1 and the fourth hook never starts. -/
theorem start_failure_rollback_witness :
    runStart [⟨1, true, true⟩, ⟨2, true, false⟩, ⟨3, false, true⟩, ⟨4, true, true⟩] =
      (([⟨1, true, true⟩, ⟨2, true, false⟩] : List Hook).map (fun h => Ev.started h.hid) ++
         Ev.startFailed 3 :: ([⟨1, true, true⟩, ⟨2, true, false⟩] : List Hook).reverse.map stopEvOf,
       some (LifeErr.startHookFailed 3)) ∧
    stateAfterStart [⟨1, true, true⟩, ⟨2, true, false⟩, ⟨3, false, true⟩, ⟨4, true, true⟩] =
      ContainerState.FailedToStart :=
  start_failure_rollback [⟨1, true, true⟩, ⟨2, true, false⟩] ⟨3, false, true⟩ [⟨4, true, true⟩]
    (by decide) (by decide)

/-- C4: the stop phase attempts every registered hook's OnStop in reverse
append order regardless of individual failures, collects exactly the ids of
the failing OnStop hooks, includes every such failure in the returned error
collection, and the container still reaches `Stopped`. -/
theorem stop_attempts_every_hook (hooks : List Hook) :
    (runStop hooks).1 = hooks.reverse.map stopEvOf ∧
    (runStop hooks).2 = (hooks.reverse.filter (fun h => !h.stopOk)).map Hook.hid ∧
    (∀ h ∈ hooks, h.stopOk = false → h.hid ∈ (runStop hooks).2) ∧
    stateAfterStop hooks = ContainerState.Stopped := by
  have hs := runStopGo_spec hooks.reverse
  refine ⟨congrArg Prod.fst hs, congrArg Prod.snd hs, ?_, rfl⟩
  intro h hh hf
  have hmem : h ∈ hooks.reverse.filter (fun x => !x.stopOk) := by
    rw [List.mem_filter]
    exact ⟨List.mem_reverse.mpr hh, by simp [hf]⟩
  have h2 : h.hid ∈ (hooks.reverse.filter (fun x => !x.stopOk)).map Hook.hid :=
    List.mem_map_of_mem Hook.hid hmem
  rw [show (runStop hooks).2 = _ from congrArg Prod.snd hs]
  exact h2

/-- Witness for C4: hook 1's OnStop fails, hook 2's OnStop still runs, and
the returned error collection contains hook 1's failure. -/
theorem stop_attempts_every_hook_witness :
    (runStop [⟨1, true, false⟩, ⟨2, true, true⟩]).1 =
        ([⟨1, true, false⟩, ⟨2, true, true⟩] : List Hook).reverse.map stopEvOf ∧
      (runStop [⟨1, true, false⟩, ⟨2, true, true⟩]).2 =
        (([⟨1, true, false⟩, ⟨2, true, true⟩] : List Hook).reverse.filter
            (fun h => !h.stopOk)).map Hook.hid ∧
      (∀ h ∈ ([⟨1, true, false⟩, ⟨2, true, true⟩] : List Hook), h.stopOk = false →
        h.hid ∈ (runStop [⟨1, true, false⟩, ⟨2, true, true⟩]).2) ∧
      stateAfterStop [⟨1, true, false⟩, ⟨2, true, true⟩] = ContainerState.Stopped :=
  stop_attempts_every_hook [⟨1, true, false⟩, ⟨2, true, true⟩]

/-- C9: the OnStart hook appended by `NewMux` returns `nil` for every input
context and world: it records the spawned `server.ListenAndServe` goroutine
and returns immediately, so any listen/serve failure is dropped; moreover a
start-phase `startHookFailed` error is only ever attributed to a hook whose
OnStart actually fails, so that branch is unreachable via this hook. -/
theorem mux_onstart_never_fails :
    (∀ (logger : GoLogger) (ctx : GoCtx) (w : MuxWorld),
        ((NewMux logger).2.onStart ctx w).2 = none ∧
        ((NewMux logger).2.onStart ctx w).1.goroutines =
          w.goroutines ++ ["server.ListenAndServe"]) ∧
    (∀ (hooks : List Hook) (hid : Nat),
        (runStart hooks).2 = some (LifeErr.startHookFailed hid) →
          ∃ h ∈ hooks, h.hid = hid ∧ h.startOk = false) := by
  constructor
  · intro logger ctx w
    exact ⟨rfl, rfl⟩
  · intro hooks hid h
    exact runStartGo_fail_source hooks [] hid h

/-- Witness for C9: a start failure at a concrete hook sequence is traced to
a hook whose OnStart fails. -/
theorem mux_onstart_never_fails_witness :
    ∃ h ∈ ([⟨5, false, true⟩] : List Hook), h.hid = 5 ∧ h.startOk = false :=
  mux_onstart_never_fails.2 [⟨5, false, true⟩] 5 (by decide)

/-- C10: `NewHandler` returns a `nil` error for every logger input, so the
`ConstructorFailed` path is unreachable for this provider. -/
theorem newHandler_never_fails (logger : GoLogger) :
    (NewHandler logger).2.2 = none :=
  rfl

/-- C1: once a resolution of TypeKey `T` succeeds, `T` is in the instance
cache of the resulting state, and every later resolution of `T` returns the
cached instance with the state unchanged — in particular the execution
trace does not grow, so the constructor does not run again. -/
theorem resolve_constructor_once (reg : List Provider) (fuel fuel2 : Nat) (ip ip2 : List Nat)
    (st st' : St) (T : Nat) (h : resolve reg fuel ip st T = (none, st')) (hf2 : 0 < fuel2) :
    T ∈ st'.cache ∧ resolve reg fuel2 ip2 st' T = (none, st') :=
  ⟨resolve_success_cached h, resolve_cache_hit hf2 (resolve_success_cached h)⟩

/-- Witness for C1: after resolving TypeKey 7 once, it is cached and a
second resolution returns the same state (trace still `[1]`: one
execution). -/
theorem resolve_constructor_once_witness :
    (7 : Nat) ∈ (St.mk [7] [1] []).cache ∧
      resolve [⟨1, [], [7], true, []⟩] 1 [] ⟨[7], [1], []⟩ 7 = (none, ⟨[7], [1], []⟩) :=
  resolve_constructor_once [⟨1, [], [7], true, []⟩] 3 1 [] [] ⟨[], [], []⟩ ⟨[7], [1], []⟩ 7
    (by decide) (by decide)

/-- C5: in a provider graph with a dependency cycle (A's provider needs B
and B's provider needs A), resolving a type on the cycle from the empty
state fails with `CyclicDependency` naming that type, and the final state is
unchanged: the trace is empty (no constructor on the cycle executed) and the
cache is empty (no instance was cached). -/
theorem cycle_detected (a b pidA pidB : Nat) (okA okB : Bool) (hsA hsB : List Hook)
    (rest : List Provider) (fuel : Nat) (hne : a ≠ b) (hf : 3 ≤ fuel) :
    resolve (⟨pidA, [b], [a], okA, hsA⟩ :: ⟨pidB, [a], [b], okB, hsB⟩ :: rest) fuel []
        ⟨[], [], []⟩ a =
      (some (ResErr.CyclicDependency a), ⟨[], [], []⟩) := by
  obtain ⟨n, rfl⟩ : ∃ n, fuel = n + 3 := ⟨fuel - 3, by omega⟩
  simp [resolve, resolveMany, lookupTK, List.find?, hne, Ne.symm hne]

/-- Witness for C5: the two-provider cycle between TypeKeys 1 and 2 is
rejected with no construction. -/
theorem cycle_detected_witness :
    resolve [⟨1, [2], [1], true, []⟩, ⟨2, [1], [2], true, []⟩] 10 [] ⟨[], [], []⟩ 1 =
      (some (ResErr.CyclicDependency 1), ⟨[], [], []⟩) :=
  cycle_detected 1 2 1 2 true true [] [] [] 10 (by decide) (by decide)

/-- C8: when a required TypeKey has no registered provider, resolution fails
with `UnknownType` naming that key and leaves the state unchanged; in
particular, for the scenario registry with `Handler(Logger)` but no `Logger`
provider and an invocation needing the handler, start fails with
`UnknownType` referencing `Logger`, no invocation runs, the hook sequence
stays empty and no lifecycle event occurs. -/
theorem unknown_type_fails (reg : List Provider) (t fuel : Nat) (ip : List Nat) (st : St)
    (hf : 0 < fuel) (hc : t ∉ st.cache) (hip : t ∉ ip) (hl : lookupTK reg t = none) :
    resolve reg fuel ip st t = (some (ResErr.UnknownType t), st) ∧
    appStart regNoLogger 20 [invHandler] =
      (some (AppErr.res (ResErr.UnknownType kLogger)), ⟨[], [], []⟩, [], []) := by
  constructor
  · cases fuel with
    | zero => exact absurd hf (by simp)
    | succ n => simp [resolve, resolveMany, hc, hip, hl]
  · rfl

/-- Witness for C8: resolving an unprovided TypeKey in the empty registry
fails with `UnknownType`. -/
theorem unknown_type_fails_witness :
    resolve [] 1 [] ⟨[], [], []⟩ 5 = (some (ResErr.UnknownType 5), ⟨[], [], []⟩) :=
  (unknown_type_fails [] 5 1 [] ⟨[], [], []⟩ (by decide) (by decide) (by decide) rfl).1

/-- Unfolding: an invocation whose parameter resolution fails aborts the
pass with the resolution error and an empty invocation trace. -/
theorem runInvs_cons_resErr {reg : List Provider} {fuel : Nat} {i : Invocation}
    {rest : List Invocation} {st st1 : St} {e : ResErr}
    (hr : resolveMany reg fuel [] st i.inputs = (some e, st1)) :
    runInvs reg fuel (i :: rest) st = (some (AppErr.res e), st1, []) := by
  simp [runInvs, hr]

/-- Unfolding: an invocation whose parameters resolve and which itself
succeeds is called and the pass continues with the remaining invocations. -/
theorem runInvs_cons_ok {reg : List Provider} {fuel : Nat} {i : Invocation}
    {rest : List Invocation} {st st1 : St}
    (hr : resolveMany reg fuel [] st i.inputs = (none, st1)) (hok : i.ok = true) :
    runInvs reg fuel (i :: rest) st =
      ((runInvs reg fuel rest st1).1, (runInvs reg fuel rest st1).2.1,
        i.iid :: (runInvs reg fuel rest st1).2.2) := by
  simp [runInvs, hr, hok]

/-- Unfolding: an invocation whose parameters resolve but which itself fails
is called, then the pass aborts with `invocationFailed`. -/
theorem runInvs_cons_fail {reg : List Provider} {fuel : Nat} {i : Invocation}
    {rest : List Invocation} {st st1 : St}
    (hr : resolveMany reg fuel [] st i.inputs = (none, st1)) (hok : i.ok = false) :
    runInvs reg fuel (i :: rest) st = (some (AppErr.invocationFailed i.iid), st1, [i.iid]) := by
  simp [runInvs, hr, hok]

/-- C6: a registered provider none of whose produced TypeKeys is
transitively required by any registered invocation never executes during
the materialization pass (its id never enters the trace), and consequently
never appends any hook: every hook in the final sequence comes from a
different provider, one that did execute. -/
theorem lazy_provider_never_runs (reg : List Provider) (fuel : Nat) (invs : List Invocation)
    (p : Provider) (_hp : p ∈ reg)
    (hun : ∀ inv ∈ invs, ∀ t ∈ inv.inputs, ∀ tp, Reach reg t tp →
      ∀ q, lookupTK reg tp = some q → q.pid ≠ p.pid) :
    p.pid ∉ ((runInvs reg fuel invs ⟨[], [], []⟩).2.1).trace ∧
    ∀ h ∈ ((runInvs reg fuel invs ⟨[], [], []⟩).2.1).hooks,
      ∃ q, q ∈ reg ∧ q.pid ∈ ((runInvs reg fuel invs ⟨[], [], []⟩).2.1).trace ∧
        h ∈ q.hooks ∧ q.pid ≠ p.pid := by
  have hnot : p.pid ∉ ((runInvs reg fuel invs ⟨[], [], []⟩).2.1).trace := by
    intro hmem
    rcases runInvs_trace_reach reg fuel invs ⟨[], [], []⟩ p.pid hmem with
      h1 | ⟨inv, t, tp, q, hi, ht, hre, hlo, hpid⟩
    · simp at h1
    · exact hun inv hi t ht tp hre q hlo hpid
  refine ⟨hnot, ?_⟩
  intro h hh
  rcases runInvs_hooks_provenance reg fuel invs ⟨[], [], []⟩ h hh with h1 | ⟨q, hq, hqt, hqh⟩
  · simp at h1
  · refine ⟨q, hq, hqt, hqh, ?_⟩
    intro he
    rw [he] at hqt
    exact hnot hqt

/-- Witness for C6: provider 2 (which would append a hook) is not needed by
the only invocation, so it never runs and no hook is appended. -/
theorem lazy_provider_never_runs_witness :
    (2 : Nat) ∉ ((runInvs [⟨1, [], [1], true, []⟩, ⟨2, [], [2], true, [⟨9, true, true⟩]⟩] 10
        [⟨1, [], true⟩] ⟨[], [], []⟩).2.1).trace ∧
    ∀ h ∈ ((runInvs [⟨1, [], [1], true, []⟩, ⟨2, [], [2], true, [⟨9, true, true⟩]⟩] 10
        [⟨1, [], true⟩] ⟨[], [], []⟩).2.1).hooks,
      ∃ q, q ∈ [(⟨1, [], [1], true, []⟩ : Provider), ⟨2, [], [2], true, [⟨9, true, true⟩]⟩] ∧
        q.pid ∈ ((runInvs [⟨1, [], [1], true, []⟩, ⟨2, [], [2], true, [⟨9, true, true⟩]⟩] 10
          [⟨1, [], true⟩] ⟨[], [], []⟩).2.1).trace ∧ h ∈ q.hooks ∧ q.pid ≠ 2 :=
  lazy_provider_never_runs [⟨1, [], [1], true, []⟩, ⟨2, [], [2], true, [⟨9, true, true⟩]⟩] 10
    [⟨1, [], true⟩] ⟨2, [], [2], true, [⟨9, true, true⟩]⟩ (by decide)
    (by
      intro inv hi t ht tp hre q hlo
      have := List.mem_singleton.mp hi
      subst this
      simp at ht)

/-- C7: invocations run strictly in registration order (on overall success
the invocation trace is exactly the registered ids in order); on any
failure the trace is a prefix of the registered order, so no later
invocation runs; an `invocationFailed` error names the invocation that ran
last, and a resolution error means the failing invocation itself was never
called (the prefix is strictly shorter than the registration list). -/
theorem invocations_in_registration_order (reg : List Provider) (fuel : Nat)
    (invs : List Invocation) (st : St) :
    ((runInvs reg fuel invs st).1 = none →
      (runInvs reg fuel invs st).2.2 = invs.map Invocation.iid) ∧
    (∀ e, (runInvs reg fuel invs st).1 = some e →
      ∃ k, k ≤ invs.length ∧
        (runInvs reg fuel invs st).2.2 = (invs.map Invocation.iid).take k ∧
        (∀ j, e = AppErr.invocationFailed j →
          ((runInvs reg fuel invs st).2.2).getLast? = some j) ∧
        (∀ re, e = AppErr.res re → k < invs.length)) := by
  induction invs generalizing st with
  | nil =>
    constructor
    · intro _; rfl
    · intro e he; simp [runInvs] at he
  | cons i rest ih =>
    rcases hr : resolveMany reg fuel [] st i.inputs with ⟨e1, st1⟩
    cases e1 with
    | some e =>
      rw [runInvs_cons_resErr hr]
      constructor
      · intro hnone; simp at hnone
      · intro e2 he2
        have he : e2 = AppErr.res e := (Option.some.inj he2).symm
        refine ⟨0, Nat.zero_le _, by simp, ?_, ?_⟩
        · intro j hj
          rw [he] at hj
          exact absurd hj (by simp)
        · intro re _
          simp
    | none =>
      by_cases hok : i.ok
      · rw [runInvs_cons_ok hr hok]
        have ihs := ih st1
        constructor
        · intro hnone
          simp only [] at hnone
          have htr := ihs.1 hnone
          simp [htr]
        · intro e2 he2
          simp only [] at he2
          obtain ⟨k, hk, htr, hinv, hres⟩ := ihs.2 e2 he2
          refine ⟨k + 1, Nat.succ_le_succ (by simpa using hk), ?_, ?_, ?_⟩
          · simp [htr]
          · intro j hj
            have hlast := hinv j hj
            cases htl : (runInvs reg fuel rest st1).2.2 with
            | nil =>
              rw [htl] at hlast
              simp at hlast
            | cons x xs =>
              rw [htl] at hlast
              rw [List.getLast?_cons_cons]
              exact hlast
          · intro re hre
            have := hres re hre
            simpa using Nat.succ_lt_succ this
      · have hokf : i.ok = false := by simpa using hok
        rw [runInvs_cons_fail hr hokf]
        constructor
        · intro hnone; simp at hnone
        · intro e2 he2
          have he : e2 = AppErr.invocationFailed i.iid := (Option.some.inj he2).symm
          refine ⟨1, Nat.succ_le_succ (Nat.zero_le _), by simp, ?_, ?_⟩
          · intro j hj
            rw [he] at hj
            have hj2 : i.iid = j := by
              cases hj
              rfl
            simp [hj2]
          · intro re hre
            rw [he] at hre
            exact absurd hre (by simp)

/-- Witness for C7: with a failing second invocation, the trace is exactly
the first two registered ids and the error names the second invocation. -/
theorem invocations_in_registration_order_witness :
    ∃ k, k ≤ ([⟨1, [], true⟩, ⟨2, [], false⟩, ⟨3, [], true⟩] : List Invocation).length ∧
      (runInvs [] 5 [⟨1, [], true⟩, ⟨2, [], false⟩, ⟨3, [], true⟩] ⟨[], [], []⟩).2.2 =
        (([⟨1, [], true⟩, ⟨2, [], false⟩, ⟨3, [], true⟩] : List Invocation).map
          Invocation.iid).take k ∧
      (∀ j, AppErr.invocationFailed 2 = AppErr.invocationFailed j →
        ((runInvs [] 5 [⟨1, [], true⟩, ⟨2, [], false⟩, ⟨3, [], true⟩] ⟨[], [], []⟩).2.2).getLast?
          = some j) ∧
      (∀ re, AppErr.invocationFailed 2 = AppErr.res re →
        k < ([⟨1, [], true⟩, ⟨2, [], false⟩, ⟨3, [], true⟩] : List Invocation).length) :=
  (invocations_in_registration_order [] 5 [⟨1, [], true⟩, ⟨2, [], false⟩, ⟨3, [], true⟩]
      ⟨[], [], []⟩).2 (AppErr.invocationFailed 2) (by decide)
